import Mathlib

/-
Verification development for the SEC-filing chunk-production pipeline and
index gateway.  The Python sources are embedded shallowly: text is modelled
as List Char, Python dicts as association lists, and the regular
expressions of document_processor.py as explicit decidable matchers.
-/

namespace SECFiling

/-- Whitespace predicate matching Python's str whitespace set for the ASCII
range (space, tab, newline, carriage return, vertical tab, form feed). -/
def pyWS (c : Char) : Bool :=
  c = ' ' || c = '\t' || c = '\n' || c = '\r' || c = '\x0b' || c = '\x0c'

/-- Split a character list at every occurrence of a single character,
keeping empty pieces, as Python's text.split(sep) does for a one-character
separator. -/
def splitOnChar (sep : Char) : List Char → List (List Char)
  | [] => [[]]
  | c :: rest =>
    if c = sep then [] :: splitOnChar sep rest
    else
      match splitOnChar sep rest with
      | [] => [[c]]
      | r :: rs => (c :: r) :: rs

/-- Accumulator pass behind pyWords: cur holds the reversed current word. -/
def pyWordsAux (cur : List Char) : List Char → List (List Char)
  | [] => if cur = [] then [] else [cur.reverse]
  | c :: rest =>
    if pyWS c then
      if cur = [] then pyWordsAux [] rest
      else cur.reverse :: pyWordsAux [] rest
    else pyWordsAux (c :: cur) rest

/-- Python text.split() with no argument: split on whitespace runs and drop
empty pieces. -/
def pyWords (s : List Char) : List (List Char) := pyWordsAux [] s

/-- Character class of re.sub(r'[^\w\s\.,;:\-\(\)\'\"$%]', ' ', text) in
_normalize_text: word characters (ASCII model of \w), whitespace, and the
listed punctuation survive; everything else is replaced by a space. -/
def allowedChar (c : Char) : Bool :=
  c.isAlphanum || c = '_' || pyWS c ||
    c = '.' || c = ',' || c = ';' || c = ':' || c = '-' ||
    c = '(' || c = ')' || c = '\'' || c = '\"' || c = '$' || c = '%'

/-- State-machine pass behind collapseWS; the flag records whether the
previous character was whitespace. -/
def collapseWSAux (prevWS : Bool) : List Char → List Char
  | [] => []
  | c :: rest =>
    if pyWS c then
      if prevWS then collapseWSAux true rest
      else ' ' :: collapseWSAux true rest
    else c :: collapseWSAux false rest

/-- re.sub(r'\s+', ' ', text): every maximal whitespace run becomes one
space. -/
def collapseWS (s : List Char) : List Char := collapseWSAux false s

/-- Python str.strip(): drop leading and trailing whitespace. -/
def pyStrip (s : List Char) : List Char :=
  ((s.dropWhile pyWS).reverse.dropWhile pyWS).reverse

/-- DocumentTextProcessor._normalize_text: join the whitespace-split words
with single spaces, replace disallowed characters by spaces, collapse
whitespace runs, and strip. -/
def normalize_text (s : List Char) : List Char :=
  let s1 := List.intercalate [' '] (pyWords s)
  let s2 := s1.map (fun c => if allowedChar c then c else ' ')
  pyStrip (collapseWS s2)

/-! Section heading recognition.  The five patterns of
section_identifiers are embedded as token lists over a small regex
fragment: case-insensitive literals, an optional character, and a
whitespace star.  Each source pattern has the shape
(Item ...)?CORE where the leading group is optional; re.search succeeds
on a line iff CORE matches somewhere in it (an optional leading group
cannot change whether a search succeeds), so only CORE is embedded. -/

/-- Token alphabet for the section-heading regexes: a case-insensitive
literal character, an optional character, and a whitespace repetition. -/
inductive RTok
  | lit (c : Char)
  | opt (c : Char)
  | wsStar
deriving DecidableEq

/-- Fuelled backtracking matcher: does the token list match some prefix of
the character list?  Every recursive call decreases tokens + characters,
so fuel tokens + characters + 1 is always sufficient. -/
def toksMatchF : Nat → List RTok → List Char → Bool
  | 0, _, _ => false
  | _ + 1, [], _ => true
  | f + 1, RTok.lit c :: ts, s =>
    match s with
    | [] => false
    | x :: xs => x.toLower = c && toksMatchF f ts xs
  | f + 1, RTok.opt c :: ts, s =>
    toksMatchF f ts s ||
      (match s with
       | [] => false
       | x :: xs => x.toLower = c && toksMatchF f ts xs)
  | f + 1, RTok.wsStar :: ts, s =>
    toksMatchF f ts s ||
      (match s with
       | [] => false
       | x :: xs => pyWS x && toksMatchF f (RTok.wsStar :: ts) xs)

/-- Match the token list against a prefix of s, with adequate fuel. -/
def toksMatch (ts : List RTok) (s : List Char) : Bool :=
  toksMatchF (ts.length + s.length + 1) ts s

/-- Fuelled re.search: try to match at each successive start position. -/
def rsearchF : Nat → List RTok → List Char → Bool
  | 0, _, _ => false
  | f + 1, ts, s =>
    toksMatch ts s ||
      (match s with
       | [] => false
       | _ :: xs => rsearchF f ts xs)

/-- re.search with the IGNORECASE flag, embedded via lowercase literals. -/
def rsearch (ts : List RTok) (s : List Char) : Bool :=
  rsearchF (s.length + 1) ts s

/-- Case-insensitive literal run. -/
def litsOf (w : String) : List RTok := w.toList.map RTok.lit

/-- Pattern core of r'(Item\s*1A\.?\s*)?Risk\s*Factors'. -/
def pat_risk_factors : List RTok :=
  litsOf "risk" ++ [RTok.wsStar] ++ litsOf "factors"

/-- Pattern core of r'(Item\s*7\.?\s*)?Management\'?s?\s*Discussion\s*and\s*Analysis'. -/
def pat_mda : List RTok :=
  litsOf "management" ++ [RTok.opt '\'', RTok.opt 's', RTok.wsStar] ++
    litsOf "discussion" ++ [RTok.wsStar] ++ litsOf "and" ++ [RTok.wsStar] ++
    litsOf "analysis"

/-- Pattern core of r'(Item\s*1\.?\s*)?Business'. -/
def pat_business : List RTok := litsOf "business"

/-- Pattern core of r'(Item\s*8\.?\s*)?Financial\s*Statements'. -/
def pat_financial_statements : List RTok :=
  litsOf "financial" ++ [RTok.wsStar] ++ litsOf "statements"

/-- Pattern core of the market-risk pattern; with IGNORECASE the class
[Aa] is a plain case-insensitive letter. -/
def pat_market_risk : List RTok :=
  litsOf "quantitative" ++ [RTok.wsStar] ++ litsOf "and" ++ [RTok.wsStar] ++
    litsOf "qualitative" ++ [RTok.wsStar] ++ litsOf "disclosures" ++
    [RTok.wsStar] ++ litsOf "about" ++ [RTok.wsStar] ++ litsOf "market" ++
    [RTok.wsStar] ++ litsOf "risk"

/-- Ordered table self.section_identifiers of DocumentTextProcessor
(dict insertion order). -/
def section_identifiers : List (String × List RTok) :=
  [("risk_factors", pat_risk_factors),
   ("mda", pat_mda),
   ("business", pat_business),
   ("financial_statements", pat_financial_statements),
   ("market_risk", pat_market_risk)]

/-- DocumentTextProcessor._determine_section_type: first pattern in table
order whose search succeeds wins, else the category is other. -/
def determine_section_type (line : List Char) : String :=
  match section_identifiers.find? (fun p => rsearch p.2 line) with
  | some p => p.1
  | none => "other"

/-- Loop body of _partition_into_sections: cur is current_content, cat is
current_category; a category-bearing line flushes the accumulator and
starts a new section, any other line is appended after a newline. -/
def partGo : List (List Char) → List Char → String → List (List Char × String)
  | [], cur, cat => if cur = [] then [] else [(cur, cat)]
  | line :: rest, cur, cat =>
    if determine_section_type line ≠ "other" then
      (if cur = [] then [] else [(cur, cat)]) ++
        partGo rest line (determine_section_type line)
    else partGo rest (cur ++ '\n' :: line) cat

/-- DocumentTextProcessor._partition_into_sections. -/
def partition_into_sections (text : List Char) : List (List Char × String) :=
  partGo (splitOnChar '\n' text) [] "other"

/-! Chunk splitting. -/

/-- Configured chunk_size of the RecursiveCharacterTextSplitter. -/
def chunk_size : Nat := 1500

/-- Configured chunk_overlap of the RecursiveCharacterTextSplitter. -/
def chunk_overlap : Nat := 300

/-- Configured separator priority list. -/
def separators : List (List Char) := [['\n', '\n'], ['\n'], ['.'], [' ']]

/-- Fuelled split on a nonempty separator given by head and tail: a greedy
leftmost scan, emitting an empty piece boundary at each separator
occurrence.  Each step consumes at least one character, so fuel
s.length + 1 is always sufficient. -/
def splitOnSepF (c0 : Char) (cs : List Char) : Nat → List Char → List (List Char)
  | 0, _ => [[]]
  | _ + 1, [] => [[]]
  | f + 1, c :: rest =>
    if (c0 :: cs).isPrefixOf (c :: rest) then
      [] :: splitOnSepF c0 cs f ((c :: rest).drop (cs.length + 1))
    else
      match splitOnSepF c0 cs f rest with
      | [] => [[]]
      | r :: rs => (c :: r) :: rs

/-- Split on a nonempty separator, with adequate fuel. -/
def splitOnSepNE (c0 : Char) (cs : List Char) (s : List Char) : List (List Char) :=
  splitOnSepF c0 cs (s.length + 1) s

/-- Split on a separator string (an empty separator leaves the text whole;
the configured separators are all nonempty). -/
def pySplitOn (sep : List Char) (s : List Char) : List (List Char) :=
  match sep with
  | [] => [s]
  | c0 :: cs => splitOnSepNE c0 cs s

/-- Modelled from the spec: recursive phase of ChunkSplitter.split (§4.3).
The concrete splitter is langchain's RecursiveCharacterTextSplitter, an
external library whose source is not part of this repository.  Split on
the first separator in priority order, drop empty pieces, keep pieces
within chunk_size, and recursively split oversized pieces with the
remaining separators; at separator exhaustion the piece is an atomic
unit and is returned whole. -/
def splitRec : List (List Char) → List Char → List (List Char)
  | [], s => [s]
  | sep :: rest, s =>
    ((pySplitOn sep s).filter (fun p => p ≠ [])).flatMap
      (fun p => if p.length ≤ chunk_size then [p] else splitRec rest p)

/-- Last k characters of a list. -/
def takeLast (k : Nat) (l : List Char) : List Char := l.drop (l.length - k)

/-- Modelled from the spec: start of a fresh chunk after a flush — the
re-read overlap window of the previous chunk, clamped so that the new
chunk can still honour the chunk_size guarantee of §4.3, followed by the
next piece. -/
def startChunk (prev p : List Char) : List Char :=
  if min chunk_overlap (chunk_size - (p.length + 1)) = 0 then p
  else takeLast (min chunk_overlap (chunk_size - (p.length + 1))) prev ++ ' ' :: p

/-- Modelled from the spec: greedy merge phase of ChunkSplitter.split
(§4.3).  Adjacent pieces are merged up to chunk_size; an oversized atomic
unit becomes its own chunk; each chunk after the first starts with the
overlap window of its predecessor. -/
def mergeAux : List Char → List (List Char) → List (List Char)
  | acc, [] => if acc = [] then [] else [acc]
  | acc, p :: rest =>
    if chunk_size < p.length then
      (if acc = [] then [] else [acc]) ++ p :: mergeAux (takeLast chunk_overlap p) rest
    else if acc = [] then mergeAux p rest
    else if acc.length + 1 + p.length ≤ chunk_size then
      mergeAux (acc ++ ' ' :: p) rest
    else acc :: mergeAux (startChunk acc p) rest

/-- Modelled from the spec: ChunkSplitter.split (§4.3), the
text_segmenter.split_text call of process_document. -/
def split_text (s : List Char) : List (List Char) :=
  mergeAux [] (splitRec separators s)

/-! Metric extraction (_extract_financial_metrics). -/

/-- Extracted metric sets; Python floats arising here are exact decimals,
modelled as rationals. -/
structure MetricSet where
  currency_amounts : List ℚ
  percentages : List ℚ
deriving DecidableEq

/-- Numeric value of a digit run. -/
def natOfDigits (ds : List Char) : Nat :=
  ds.foldl (fun a c => a * 10 + (c.toNat - '0'.toNat)) 0

/-- Python float() of a matched numeric literal with commas stripped:
an integer part and an optional fractional part after one dot.  The exact
decimal value is built with mkRat directly so that it reduces inside the
kernel. -/
def parseNumLit (g : List Char) : ℚ :=
  let g' := g.filter (fun c => c ≠ ',')
  match splitOnChar '.' g' with
  | [ip] => mkRat (natOfDigits ip) 1
  | [ip, fp] => mkRat (natOfDigits ip * 10 ^ fp.length + natOfDigits fp) (10 ^ fp.length)
  | _ => 0

/-- Unit words of the currency regex. -/
inductive CUnit
  | million
  | billion
  | trillion
deriving DecidableEq

/-- Multiplier table of _extract_financial_metrics. -/
def unitMult : CUnit → Int
  | CUnit.million => 1000000
  | CUnit.billion => 1000000000
  | CUnit.trillion => 1000000000000

/-- Exact multiplication of a parsed amount by a unit multiplier. -/
def applyUnit (q : ℚ) : Option CUnit → ℚ
  | some u => mkRat (q.num * unitMult u) q.den
  | none => q

/-- Greedy scan of (?:,\d{3})*: maximal run of comma-plus-three-digit
groups; the regex suffix after this group is entirely optional, so the
maximal run is the match. -/
def commaGroups : List Char → List Char × List Char
  | ',' :: a :: b :: c :: rest =>
    if a.isDigit && b.isDigit && c.isDigit then
      match commaGroups rest with
      | (gs, r) => (',' :: a :: b :: c :: gs, r)
    else ([], ',' :: a :: b :: c :: rest)
  | s => ([], s)

/-- Greedy scan of (?:\.\d{2})?: a dot followed by exactly two digits,
if present. -/
def optCents : List Char → List Char × List Char
  | '.' :: a :: b :: rest =>
    if a.isDigit && b.isDigit then (['.', a, b], rest)
    else ([], '.' :: a :: b :: rest)
  | s => ([], s)

/-- Literal unit-word match; the source regex has no IGNORECASE flag, so
only the lowercase words match. -/
def matchUnit (s : List Char) : Option CUnit × List Char :=
  if "million".toList.isPrefixOf s then (some CUnit.million, s.drop 7)
  else if "billion".toList.isPrefixOf s then (some CUnit.billion, s.drop 7)
  else if "trillion".toList.isPrefixOf s then (some CUnit.trillion, s.drop 8)
  else (none, s)

/-- Match of r'\$\s*(\d+(?:,\d{3})*(?:\.\d{2})?)\s*(million|billion|trillion)?'
at the head of s: returns the first capture group, the optional unit, and
the remainder after the match.  Every construct after \d+ is optional, so
the greedy scan needs no backtracking. -/
def matchCurrency : List Char → Option (List Char × Option CUnit × List Char)
  | '$' :: r =>
    let r1 := r.dropWhile pyWS
    let ds := r1.takeWhile Char.isDigit
    if ds = [] then none
    else
      let r2 := r1.dropWhile Char.isDigit
      match commaGroups r2 with
      | (gs, r3) =>
        match optCents r3 with
        | (cents, r4) =>
          let r5 := r4.dropWhile pyWS
          match matchUnit r5 with
          | (u, r6) => some (ds ++ gs ++ cents, u, r6)
  | _ => none

/-- Fuelled re.finditer scan for the currency regex: try a match at each
position, resuming after each match.  A match always consumes at least
the dollar sign, so fuel s.length + 1 suffices. -/
def scanCurrencyF : Nat → List Char → List (List Char × Option CUnit)
  | 0, _ => []
  | _ + 1, [] => []
  | f + 1, c :: rest =>
    match matchCurrency (c :: rest) with
    | some (g, u, r6) => (g, u) :: scanCurrencyF f r6
    | none => scanCurrencyF f rest

/-- All currency matches of a text, in order. -/
def scanCurrency (s : List Char) : List (List Char × Option CUnit) :=
  scanCurrencyF (s.length + 1) s

/-- Trailing \s*% of the percentage regex. -/
def pctTail (s : List Char) : Option (List Char) :=
  match s.dropWhile pyWS with
  | '%' :: r => some r
  | _ => none

/-- Match of r'(\d+(?:\.\d+)?)\s*%' at the head of s: the greedy
fractional branch is tried first and the match falls back to the bare
integer when the percent sign does not follow. -/
def matchPct (s : List Char) : Option (List Char × List Char) :=
  let ds := s.takeWhile Char.isDigit
  if ds = [] then none
  else
    let r1 := s.dropWhile Char.isDigit
    let withFrac : Option (List Char × List Char) :=
      match r1 with
      | '.' :: r2 =>
        let fs := r2.takeWhile Char.isDigit
        if fs = [] then none
        else
          match pctTail (r2.dropWhile Char.isDigit) with
          | some r3 => some (ds ++ '.' :: fs, r3)
          | none => none
      | _ => none
    match withFrac with
    | some res => some res
    | none =>
      match pctTail r1 with
      | some r3 => some (ds, r3)
      | none => none

/-- Fuelled re.finditer scan for the percentage regex. -/
def scanPctF : Nat → List Char → List (List Char)
  | 0, _ => []
  | _ + 1, [] => []
  | f + 1, c :: rest =>
    match matchPct (c :: rest) with
    | some (g, r) => g :: scanPctF f r
    | none => scanPctF f rest

/-- All percentage matches of a text, in order. -/
def scanPct (s : List Char) : List (List Char) :=
  scanPctF (s.length + 1) s

/-- DocumentTextProcessor._extract_financial_metrics. -/
def extract_financial_metrics (s : List Char) : MetricSet :=
  { currency_amounts :=
      (scanCurrency s).map (fun gu => applyUnit (parseNumLit gu.1) gu.2),
    percentages := (scanPct s).map parseNumLit }

/-! Chunk records and process_document. -/

/-- Metadata values stored with a chunk: chroma scalars occurring here are
strings and integers. -/
inductive MVal
  | s (v : List Char)
  | n (v : Nat)
deriving DecidableEq

/-- Python dict lookup on an association list (keys are unique in every
dict built by the source). -/
def lookupMeta (k : String) : List (String × MVal) → Option MVal
  | [] => none
  | kv :: rest => if kv.1 = k then some kv.2 else lookupMeta k rest

/-- Python str() of the floats serialized into chunk metadata.  Whole
numbers render as in Python; downstream code relies only on each rendering
being nonempty and comma-free. -/
def pyFloatRepr (q : ℚ) : List Char :=
  if q.den = 1 then (toString q.num).toList ++ ['.', '0']
  else (toString q.num).toList ++ '/' :: (toString q.den).toList

/-- Serialization ','.join(map(str, values)) of a metric list. -/
def serializeRats (qs : List ℚ) : List Char :=
  List.intercalate [','] (qs.map pyFloatRepr)

/-- FilingRecord (filing_models.py), restricted to the fields
process_document reads; submission_date is modelled by its str()
rendering, which is all the source uses. -/
structure FilingRecord where
  record_identifier : List Char
  entity_name : List Char
  stock_symbol : List Char
  document_category : List Char
  submission_date : List Char
  content_text : List Char

/-- One element of the text_segments list built by process_document. -/
structure ChunkRec where
  text : List Char
  metadata : List (String × MVal)
deriving DecidableEq

/-- Metadata dict literal of process_document for one chunk. -/
def chunkMetadata (doc : FilingRecord) (cat : String) (i total : Nat)
    (fm : MetricSet) : List (String × MVal) :=
  [("filing_id", MVal.s doc.record_identifier),
   ("company_name", MVal.s doc.entity_name),
   ("ticker", MVal.s doc.stock_symbol),
   ("filing_type", MVal.s doc.document_category),
   ("filing_date", MVal.s doc.submission_date),
   ("section", MVal.s cat.toList),
   ("chunk_index", MVal.n i),
   ("total_chunks", MVal.n total),
   ("currency_amounts", MVal.s (serializeRats fm.currency_amounts)),
   ("percentages", MVal.s (serializeRats fm.percentages)),
   ("has_metrics",
     MVal.s (if fm.currency_amounts ≠ [] ∨ fm.percentages ≠ []
             then "true".toList else "false".toList))]

/-- DocumentTextProcessor.process_document: partition the filing text into
sections, normalize and split each section, extract metrics per chunk and
assemble the chunk records.  An empty content_text is falsy and is
skipped. -/
def process_document (doc : FilingRecord) : List ChunkRec :=
  if doc.content_text = [] then []
  else
    (partition_into_sections doc.content_text).flatMap (fun sec =>
      (split_text (normalize_text sec.1)).enum.map (fun ip =>
        { text := ip.2,
          metadata :=
            chunkMetadata doc sec.2 ip.1 (split_text (normalize_text sec.1)).length
              (extract_financial_metrics ip.2) }))

/-- Rendering of a metadata value inside the id f-string of
DocumentIndex.add_documents. -/
def mvalIdStr : MVal → List Char
  | MVal.s v => v
  | MVal.n k => (toString k).toList

/-- Storage ids built by DocumentIndex.add_documents:
filing_id + underscore + chunk_index, the latter defaulting to 0 when
missing. -/
def storage_ids (docs : List ChunkRec) : List (List Char) :=
  docs.map (fun d =>
    (match lookupMeta "filing_id" d.metadata with
     | some v => mvalIdStr v
     | none => []) ++
    '_' ::
    (match lookupMeta "chunk_index" d.metadata with
     | some v => mvalIdStr v
     | none => ['0']))

/-! Filter-predicate construction (_construct_search_criteria). -/

/-- Python values appearing in a filter_spec: strings, integers, lists and
dicts. -/
inductive PyVal
  | pstr (v : List Char)
  | pint (n : Int)
  | plist (vs : List PyVal)
  | pdict (kvs : List (String × PyVal))

/-- Dict lookup for PyVal association lists. -/
def pyLookup (k : String) : List (String × PyVal) → Option PyVal
  | [] => none
  | kv :: rest => if kv.1 = k then some kv.2 else pyLookup k rest

/-- Predicate trees handed to the engine: the dict literals built by
_construct_search_criteria.  fieldIs f v stands for the dict with the
single entry f: v. -/
inductive Cond
  | fieldIs (field : String) (v : PyVal)
  | orC (cs : List Cond)
  | andC (cs : List Cond)

/-- Python len() and indexing/iteration over the value bound to the in
key: a list yields its elements, a string its characters, a singleton
dict raises on in_values[0] (KeyError, modelled as none) and any other
dict iterates over its keys; len() of an integer raises TypeError. -/
def pyInElems : PyVal → Option (List PyVal)
  | PyVal.plist vs => some vs
  | PyVal.pstr v => some (v.map (fun c => PyVal.pstr [c]))
  | PyVal.pdict kvs =>
    if kvs.length = 1 then none
    else some (kvs.map (fun kv => PyVal.pstr kv.1.toList))
  | PyVal.pint _ => none

/-- Loop body of _construct_search_criteria for one field: a dict value
carrying an in key becomes an equality on the sole member or a
disjunction over the members; every other value — scalar or not — is
passed through as a direct field condition. -/
def condFor (k : String) (v : PyVal) : Except Unit Cond :=
  match v with
  | PyVal.pdict kvs =>
    match pyLookup "$in" kvs with
    | some w =>
      match pyInElems w with
      | none => Except.error ()
      | some es =>
        match es with
        | [e] => Except.ok (Cond.fieldIs k e)
        | _ => Except.ok (Cond.orC (es.map (fun e => Cond.fieldIs k e)))
    | none => Except.ok (Cond.fieldIs k v)
  | _ => Except.ok (Cond.fieldIs k v)

/-- Condition list accumulated over the fields, propagating the first
raised error. -/
def condsOf : List (String × PyVal) → Except Unit (List Cond)
  | [] => Except.ok []
  | kv :: rest =>
    match condFor kv.1 kv.2 with
    | Except.error e => Except.error e
    | Except.ok c =>
      match condsOf rest with
      | Except.error e => Except.error e
      | Except.ok cs => Except.ok (c :: cs)

/-- DocumentIndex._construct_search_criteria: a falsy filter_spec yields
no predicate; a single condition is returned bare; several conditions are
joined under one conjunction. -/
def construct_search_criteria (spec : List (String × PyVal)) :
    Except Unit (Option Cond) :=
  match spec with
  | [] => Except.ok none
  | _ =>
    match condsOf spec with
    | Except.error e => Except.error e
    | Except.ok cs =>
      Except.ok (some (match cs with
        | [c] => c
        | _ => Cond.andC cs))

/-! Search-result post-processing (_process_search_results). -/

/-- Content signature: the first 100 characters of a candidate text. -/
def sigOf (d : List Char) : List Char := d.take 100

/-- Dict assignment m[k] = v: replace the value in place if the key
exists, append the entry otherwise. -/
def dictInsert (k : String) (v : MVal) : List (String × MVal) → List (String × MVal)
  | [] => [(k, v)]
  | kv :: rest =>
    if kv.1 = k then (kv.1, v) :: rest else kv :: dictInsert k v rest

/-- Count behind [float(x) for x in s.split(',') if x]: the number of
nonempty comma-separated pieces (float() always succeeds on the strings
serialized at ingestion). -/
def countSerialized (s : List Char) : Nat :=
  ((splitOnChar ',' s).filter (fun p => p ≠ [])).length

/-- metadata.get(k, '') for the string-valued serialized metric fields. -/
def metaStr (k : String) (m : List (String × MVal)) : List Char :=
  match lookupMeta k m with
  | some (MVal.s v) => v
  | _ => []

/-- Summary line attached under metrics_summary. -/
def summaryStr (m : List (String × MVal)) : List Char :=
  "Found ".toList ++
    (toString (countSerialized (metaStr "currency_amounts" m))).toList ++
    " currency amounts and ".toList ++
    (toString (countSerialized (metaStr "percentages" m))).toList ++
    " percentage values".toList

/-- Metric-summary annotation applied to a candidate's metadata before it
is emitted, exactly when has_metrics equals the string true. -/
def annotateMeta (m : List (String × MVal)) : List (String × MVal) :=
  if lookupMeta "has_metrics" m = some (MVal.s "true".toList) then
    dictInsert "metrics_summary" (MVal.s (summaryStr m)) m
  else m

/-- Pairwise annotation of an emitted candidate. -/
def annotatePair (p : List Char × List (String × MVal)) :
    List Char × List (String × MVal) :=
  (p.1, annotateMeta p.2)

/-- Loop of _process_search_results: seen holds the signatures already
emitted, acc the collected results; the loop breaks as soon as acc has
reached the limit, checking after each iteration. -/
def psrAux (limit : Nat) :
    List (List Char) → List (List Char × List (String × MVal)) →
      List (List Char × List (String × MVal)) →
      List (List Char × List (String × MVal))
  | _, acc, [] => acc
  | seen, acc, p :: rest =>
    if sigOf p.1 ∈ seen then
      if limit ≤ acc.length then acc else psrAux limit seen acc rest
    else
      let acc' := acc ++ [annotatePair p]
      if limit ≤ acc'.length then acc'
      else psrAux limit (sigOf p.1 :: seen) acc' rest

/-- DocumentIndex._process_search_results, on the first (and only) query's
parallel document/metadata arrays; the result is the zipped list of
emitted pairs. -/
def process_search_results (docs : List (List Char))
    (metas : List (List (String × MVal))) (limit : Nat) :
    List (List Char × List (String × MVal)) :=
  match docs with
  | [] => []
  | _ => psrAux limit [] [] (docs.zip metas)

/-- Reference form of the dedup walk: keep the first candidate per
signature, with seen accumulating emitted signatures.  The loop of
_process_search_results is proved equal to an annotated, truncated run of
this function. -/
def dedup_pass (seen : List (List Char)) :
    List (List Char × List (String × MVal)) →
      List (List Char × List (String × MVal))
  | [] => []
  | p :: rest =>
    if sigOf p.1 ∈ seen then dedup_pass seen rest
    else p :: dedup_pass (sigOf p.1 :: seen) rest

/-- Marker of the only filter_spec shape handled specially by
_construct_search_criteria: a dict value carrying an in key. -/
def isInDict : PyVal → Bool
  | PyVal.pdict kvs => (pyLookup "$in" kvs).isSome
  | _ => false

/-! Concrete fixtures used by the claim theorems and witnesses. -/

/-- Filing whose text partitions into two sections (risk_factors and
business), each normalizing to a single short chunk. -/
def fr_c1 : FilingRecord :=
  { record_identifier := "F1".toList,
    entity_name := "Acme Corp".toList,
    stock_symbol := "ACME".toList,
    document_category := "10-K".toList,
    submission_date := "2024-01-01 00:00:00".toList,
    content_text := "Risk Factors\nAAA.\nBusiness\nBBB.".toList }

/-- Filing with a single metric-free text line. -/
def fr_c2 : FilingRecord :=
  { record_identifier := "F2".toList,
    entity_name := "Acme Corp".toList,
    stock_symbol := "ACME".toList,
    document_category := "10-K".toList,
    submission_date := "2024-02-02 00:00:00".toList,
    content_text := "Hello world".toList }

/-- Chunk produced from fr_c2 (its whole text is one metric-free chunk of
the single other-labeled section). -/
def c2_chunk : ChunkRec :=
  { text := "Hello world".toList,
    metadata :=
      chunkMetadata fr_c2 "other" 0 1 { currency_amounts := [], percentages := [] } }

/-- Example text of the partition claim. -/
def t_c3 : List Char :=
  "Item 1A. Risk Factors\nWe face risks.\nItem 7. MD&A\nOur results...".toList

/-- Nested filter_spec value that is neither a scalar nor an in-marker. -/
def v_c5 : PyVal := PyVal.pdict [("nested", PyVal.pint 1)]

/-- Second nested value, used by the C5 witness. -/
def v_c5w : PyVal := PyVal.pdict [("lo", PyVal.pstr "x".toList), ("hi", PyVal.pstr "y".toList)]

/-- Candidate metadata flagged as carrying metrics. -/
def m_c10 : List (String × MVal) := [("has_metrics", MVal.s "true".toList)]

/-- Filing whose text is nonempty but consists of whitespace only. -/
def fr_c8 : FilingRecord :=
  { record_identifier := "F8".toList,
    entity_name := "Acme Corp".toList,
    stock_symbol := "ACME".toList,
    document_category := "10-Q".toList,
    submission_date := "2024-03-03 00:00:00".toList,
    content_text := " \n \t \n ".toList }

/-! Lemmas about the fuelled separator split. -/

theorem splitOnSepF_congr (c0 : Char) (cs : List Char) :
    ∀ (n : Nat) (s : List Char), s.length ≤ n → ∀ f1 f2 : Nat,
      s.length < f1 → s.length < f2 →
      splitOnSepF c0 cs f1 s = splitOnSepF c0 cs f2 s := by
  intro n
  induction n with
  | zero =>
    intro s hs f1 f2 h1 h2
    match s, hs with
    | [], _ =>
      match f1, f2, h1, h2 with
      | _ + 1, _ + 1, _, _ => rfl
  | succ n ih =>
    intro s hs f1 f2 h1 h2
    match s, f1, f2, h1, h2 with
    | [], _ + 1, _ + 1, _, _ => rfl
    | c :: rest, f + 1, g + 1, h1, h2 =>
      simp only [List.length_cons] at hs h1 h2
      simp only [splitOnSepF]
      by_cases hp : (c0 :: cs).isPrefixOf (c :: rest) = true
      · rw [if_pos hp, if_pos hp]
        have hd : (List.drop (cs.length + 1) (c :: rest)).length ≤ rest.length := by
          simp only [List.length_drop, List.length_cons]
          omega
        rw [ih (List.drop (cs.length + 1) (c :: rest)) (by omega) f g (by omega) (by omega)]
      · rw [if_neg hp, if_neg hp]
        rw [ih rest (by omega) f g (by omega) (by omega)]

theorem splitOnSepNE_nil (c0 : Char) (cs : List Char) :
    splitOnSepNE c0 cs [] = [[]] := rfl

theorem splitOnSepNE_cons (c0 c : Char) (cs rest : List Char) :
    splitOnSepNE c0 cs (c :: rest) =
      if (c0 :: cs).isPrefixOf (c :: rest) then
        [] :: splitOnSepNE c0 cs (List.drop (cs.length + 1) (c :: rest))
      else
        match splitOnSepNE c0 cs rest with
        | [] => [[]]
        | r :: rs => (c :: r) :: rs := by
  show splitOnSepF c0 cs ((c :: rest).length + 1) (c :: rest) = _
  simp only [List.length_cons]
  simp only [splitOnSepF]
  by_cases hp : (c0 :: cs).isPrefixOf (c :: rest) = true
  · rw [if_pos hp, if_pos hp]
    have hd : (List.drop (cs.length + 1) (c :: rest)).length ≤ rest.length := by
      simp only [List.length_drop, List.length_cons]
      omega
    congr 1
    exact splitOnSepF_congr c0 cs (List.drop (cs.length + 1) (c :: rest)).length
      (List.drop (cs.length + 1) (c :: rest)) le_rfl (rest.length + 1)
      ((List.drop (cs.length + 1) (c :: rest)).length + 1) (by omega) (by omega)
  · rw [if_neg hp, if_neg hp]
    rfl

theorem splitOnSepNE_spec (c0 : Char) (cs : List Char) :
    ∀ (n : Nat) (s : List Char), s.length ≤ n →
      (∃ h t, splitOnSepNE c0 cs s = h :: t ∧ h <+: s) ∧
      ∀ p ∈ splitOnSepNE c0 cs s, p <:+: s ∧ ¬ (c0 :: cs) <:+: p := by
  intro n
  induction n with
  | zero =>
    intro s hs
    match s, hs with
    | [], _ =>
      refine ⟨⟨[], [], rfl, List.nil_prefix⟩, ?_⟩
      intro p hp
      rw [splitOnSepNE_nil] at hp
      simp only [List.mem_singleton] at hp
      subst hp
      exact ⟨List.nil_infix, by simp⟩
  | succ n ih =>
    intro s hs
    match s with
    | [] =>
      refine ⟨⟨[], [], rfl, List.nil_prefix⟩, ?_⟩
      intro p hp
      rw [splitOnSepNE_nil] at hp
      simp only [List.mem_singleton] at hp
      subst hp
      exact ⟨List.nil_infix, by simp⟩
    | c :: rest =>
      simp only [List.length_cons] at hs
      rw [splitOnSepNE_cons]
      by_cases hp : (c0 :: cs).isPrefixOf (c :: rest) = true
      · rw [if_pos hp]
        have hlen : (List.drop (cs.length + 1) (c :: rest)).length ≤ n := by
          simp only [List.length_drop, List.length_cons]
          omega
        obtain ⟨_, hmem⟩ := ih (List.drop (cs.length + 1) (c :: rest)) hlen
        refine ⟨⟨[], _, rfl, List.nil_prefix⟩, ?_⟩
        intro p hpmem
        rcases List.mem_cons.mp hpmem with rfl | hpmem'
        · exact ⟨List.nil_infix, by simp⟩
        · obtain ⟨hinf, hnot⟩ := hmem p hpmem'
          exact ⟨hinf.trans (List.drop_suffix _ _).isInfix, hnot⟩
      · rw [if_neg hp]
        obtain ⟨⟨h0, t0, heq, hpre⟩, hmem⟩ := ih rest (by omega)
        rw [heq]
        have hch : (c :: h0) <+: (c :: rest) := List.cons_prefix_cons.mpr ⟨rfl, hpre⟩
        refine ⟨⟨c :: h0, t0, rfl, hch⟩, ?_⟩
        intro p hpmem
        rcases List.mem_cons.mp hpmem with rfl | hpmem'
        · refine ⟨hch.isInfix, ?_⟩
          intro hcon
          rcases List.infix_cons_iff.mp hcon with hpre2 | hinf2
          · exact hp (List.isPrefixOf_iff_prefix.mpr (hpre2.trans hch))
          · have hh0 := hmem h0 (heq ▸ List.mem_cons_self h0 t0)
            exact hh0.2 hinf2
        · have hq := hmem p (heq ▸ List.mem_cons_of_mem h0 hpmem')
          exact ⟨List.infix_cons hq.1, hq.2⟩

theorem pySplitOn_spec (sep : List Char) (hne : sep ≠ []) (s : List Char) :
    ∀ p ∈ pySplitOn sep s, p <:+: s ∧ ¬ sep <:+: p := by
  obtain ⟨c0, cs, rfl⟩ : ∃ c0 cs, sep = c0 :: cs := by
    cases sep with
    | nil => exact absurd rfl hne
    | cons a b => exact ⟨a, b, rfl⟩
  intro p hp
  exact (splitOnSepNE_spec c0 cs s.length s le_rfl).2 p hp

theorem splitRec_spec :
    ∀ (seps : List (List Char)) (s : List Char), (∀ t ∈ seps, t ≠ []) →
      ∀ p ∈ splitRec seps s,
        p <:+: s ∧ (p.length ≤ chunk_size ∨ ∀ t ∈ seps, ¬ t <:+: p) := by
  intro seps
  induction seps with
  | nil =>
    intro s _ p hp
    simp only [splitRec, List.mem_singleton] at hp
    subst hp
    exact ⟨List.infix_refl _, Or.inr (by simp)⟩
  | cons sep rest ih =>
    intro s hne p hp
    simp only [splitRec, List.mem_flatMap, List.mem_filter] at hp
    obtain ⟨q, ⟨hq, _⟩, hpq⟩ := hp
    have hsep := pySplitOn_spec sep (hne sep (List.mem_cons_self _ _)) s q hq
    by_cases hql : q.length ≤ chunk_size
    · rw [if_pos hql] at hpq
      simp only [List.mem_singleton] at hpq
      subst hpq
      exact ⟨hsep.1, Or.inl hql⟩
    · rw [if_neg hql] at hpq
      obtain ⟨hinf, hrest⟩ := ih q (fun t ht => hne t (List.mem_cons_of_mem _ ht)) p hpq
      refine ⟨hinf.trans hsep.1, ?_⟩
      rcases hrest with h | h
      · exact Or.inl h
      · refine Or.inr ?_
        intro t ht
        rcases List.mem_cons.mp ht with rfl | ht'
        · exact fun hcon => hsep.2 (hcon.trans hinf)
        · exact h t ht'

theorem takeLast_length_le (k : Nat) (l : List Char) : (takeLast k l).length ≤ k := by
  simp only [takeLast, List.length_drop]
  omega

theorem startChunk_length_le (prev p : List Char) (h : p.length ≤ chunk_size) :
    (startChunk prev p).length ≤ chunk_size := by
  unfold startChunk
  by_cases hk : min chunk_overlap (chunk_size - (p.length + 1)) = 0
  · rw [if_pos hk]
    exact h
  · rw [if_neg hk]
    have h1 : min chunk_overlap (chunk_size - (p.length + 1)) ≤ chunk_size - (p.length + 1) :=
      Nat.min_le_right _ _
    have h2 := takeLast_length_le (min chunk_overlap (chunk_size - (p.length + 1))) prev
    simp only [List.length_append, List.length_cons]
    omega

theorem mergeAux_spec (A : List Char → Prop) :
    ∀ (ps : List (List Char)) (acc : List Char),
      (∀ p ∈ ps, p.length ≤ chunk_size ∨ A p) → acc.length ≤ chunk_size →
      ∀ c ∈ mergeAux acc ps, c.length ≤ chunk_size ∨ A c := by
  intro ps
  induction ps with
  | nil =>
    intro acc _ hacc c hc
    simp only [mergeAux] at hc
    by_cases ha : acc = []
    · rw [if_pos ha] at hc
      simp at hc
    · rw [if_neg ha] at hc
      simp only [List.mem_singleton] at hc
      subst hc
      exact Or.inl hacc
  | cons p rest ih =>
    intro acc hps hacc c hc
    simp only [mergeAux] at hc
    by_cases h1 : chunk_size < p.length
    · rw [if_pos h1] at hc
      rcases List.mem_append.mp hc with hcl | hcr
      · by_cases ha : acc = []
        · rw [if_pos ha] at hcl
          simp at hcl
        · rw [if_neg ha] at hcl
          simp only [List.mem_singleton] at hcl
          subst hcl
          exact Or.inl hacc
      · rcases List.mem_cons.mp hcr with rfl | hcr'
        · rcases hps c (List.mem_cons_self _ _) with h | h
          · omega
          · exact Or.inr h
        · refine ih (takeLast chunk_overlap p)
            (fun q hq => hps q (List.mem_cons_of_mem _ hq)) ?_ c hcr'
          calc (takeLast chunk_overlap p).length ≤ chunk_overlap := takeLast_length_le _ _
            _ ≤ chunk_size := by decide
    · rw [if_neg h1] at hc
      have hple : p.length ≤ chunk_size := Nat.le_of_not_lt h1
      by_cases h2 : acc = []
      · rw [if_pos h2] at hc
        exact ih p (fun q hq => hps q (List.mem_cons_of_mem _ hq)) hple c hc
      · rw [if_neg h2] at hc
        by_cases h3 : acc.length + 1 + p.length ≤ chunk_size
        · rw [if_pos h3] at hc
          refine ih _ (fun q hq => hps q (List.mem_cons_of_mem _ hq)) ?_ c hc
          simp only [List.length_append, List.length_cons]
          omega
        · rw [if_neg h3] at hc
          rcases List.mem_cons.mp hc with rfl | hc'
          · exact Or.inl hacc
          · exact ih _ (fun q hq => hps q (List.mem_cons_of_mem _ hq))
              (startChunk_length_le acc p hple) c hc'

/-! Lemmas for the whitespace-only filing claim. -/

theorem splitOnChar_chars (sep : Char) :
    ∀ (s : List Char) (p : List Char), p ∈ splitOnChar sep s → ∀ c ∈ p, c ∈ s := by
  intro s
  induction s with
  | nil =>
    intro p hp c hc
    simp only [splitOnChar, List.mem_singleton] at hp
    subst hp
    simp at hc
  | cons a rest ih =>
    intro p hp c hc
    simp only [splitOnChar] at hp
    by_cases ha : a = sep
    · rw [if_pos ha] at hp
      rcases List.mem_cons.mp hp with rfl | hp'
      · simp at hc
      · exact List.mem_cons_of_mem _ (ih p hp' c hc)
    · rw [if_neg ha] at hp
      rcases hsc : splitOnChar sep rest with _ | ⟨r, rs⟩
      · rw [hsc] at hp
        simp only [List.mem_singleton] at hp
        subst hp
        simp only [List.mem_singleton] at hc
        subst hc
        exact List.mem_cons_self _ _
      · rw [hsc] at hp
        rcases List.mem_cons.mp hp with rfl | hp'
        · rcases List.mem_cons.mp hc with rfl | hc'
          · exact List.mem_cons_self _ _
          · exact List.mem_cons_of_mem _ (ih r (hsc ▸ List.mem_cons_self r rs) c hc')
        · exact List.mem_cons_of_mem _ (ih p (hsc ▸ List.mem_cons_of_mem r hp') c hc)

theorem partGo_ws :
    ∀ (lines : List (List Char)) (cur : List Char) (cat : String),
      (∀ l ∈ lines, ∀ c ∈ l, pyWS c = true) → (∀ c ∈ cur, pyWS c = true) →
      ∀ sec ∈ partGo lines cur cat, ∀ c ∈ sec.1, pyWS c = true := by
  intro lines
  induction lines with
  | nil =>
    intro cur cat _ hcur sec hsec
    simp only [partGo] at hsec
    by_cases hc : cur = []
    · rw [if_pos hc] at hsec
      simp at hsec
    · rw [if_neg hc] at hsec
      simp only [List.mem_singleton] at hsec
      subst hsec
      exact hcur
  | cons line rest ih =>
    intro cur cat hlines hcur sec hsec
    simp only [partGo] at hsec
    by_cases hd : determine_section_type line ≠ "other"
    · rw [if_pos hd] at hsec
      rcases List.mem_append.mp hsec with h1 | h2
      · by_cases hc : cur = []
        · rw [if_pos hc] at h1
          simp at h1
        · rw [if_neg hc] at h1
          simp only [List.mem_singleton] at h1
          subst h1
          exact hcur
      · exact ih line _ (fun l hl => hlines l (List.mem_cons_of_mem _ hl))
          (hlines line (List.mem_cons_self _ _)) sec h2
    · rw [if_neg hd] at hsec
      refine ih _ cat (fun l hl => hlines l (List.mem_cons_of_mem _ hl)) ?_ sec hsec
      intro c hc
      rcases List.mem_append.mp hc with h1 | h2
      · exact hcur c h1
      · rcases List.mem_cons.mp h2 with rfl | h3
        · decide
        · exact hlines line (List.mem_cons_self _ _) c h3

theorem pyWordsAux_ws :
    ∀ (s : List Char), (∀ c ∈ s, pyWS c = true) → pyWordsAux [] s = [] := by
  intro s
  induction s with
  | nil => intro; rfl
  | cons c rest ih =>
    intro h
    simp only [pyWordsAux]
    rw [if_pos (h c (List.mem_cons_self _ _))]
    simp only [if_true]
    exact ih (fun d hd => h d (List.mem_cons_of_mem _ hd))

theorem normalize_text_ws (s : List Char) (h : ∀ c ∈ s, pyWS c = true) :
    normalize_text s = [] := by
  unfold normalize_text
  rw [show pyWords s = [] from pyWordsAux_ws s h]
  rfl

theorem split_text_nil : split_text [] = [] := by decide

/-! Lemmas about the search post-processing loop. -/

theorem psrAux_eq (limit : Nat) :
    ∀ (pairs : List (List Char × List (String × MVal)))
      (seen : List (List Char)) (acc : List (List Char × List (String × MVal))),
      acc.length < limit →
      psrAux limit seen acc pairs =
        acc ++ ((dedup_pass seen pairs).take (limit - acc.length)).map annotatePair := by
  intro pairs
  induction pairs with
  | nil =>
    intro seen acc _
    simp [psrAux, dedup_pass]
  | cons p rest ih =>
    intro seen acc hlt
    simp only [psrAux, dedup_pass]
    by_cases hs : sigOf p.1 ∈ seen
    · rw [if_pos hs, if_pos hs, if_neg (Nat.not_le.mpr hlt)]
      exact ih seen acc hlt
    · rw [if_neg hs, if_neg hs]
      by_cases hl : limit ≤ (acc ++ [annotatePair p]).length
      · rw [if_pos hl]
        have hlim : limit = acc.length + 1 := by
          simp only [List.length_append, List.length_cons, List.length_nil] at hl
          omega
        rw [hlim]
        simp [List.take_succ_cons]
      · rw [if_neg hl]
        have hlt' : (acc ++ [annotatePair p]).length < limit := by
          simp only [List.length_append, List.length_cons, List.length_nil] at hl ⊢
          omega
        rw [ih (sigOf p.1 :: seen) (acc ++ [annotatePair p]) hlt']
        have harith : limit - acc.length = (limit - (acc ++ [annotatePair p]).length) + 1 := by
          simp only [List.length_append, List.length_cons, List.length_nil]
          omega
        rw [harith, List.take_succ_cons, List.map_cons, List.append_assoc]
        rfl

theorem psr_closed (docs : List (List Char)) (metas : List (List (String × MVal)))
    (limit : Nat) (h : 1 ≤ limit) :
    process_search_results docs metas limit =
      ((dedup_pass [] (docs.zip metas)).take limit).map annotatePair := by
  unfold process_search_results
  cases docs with
  | nil => simp [dedup_pass]
  | cons d ds =>
    rw [psrAux_eq limit (((d :: ds)).zip metas) [] [] (by simpa using h)]
    simp

theorem dedup_pass_sublist :
    ∀ (pairs : List (List Char × List (String × MVal))) (seen : List (List Char)),
      List.Sublist (dedup_pass seen pairs) pairs := by
  intro pairs
  induction pairs with
  | nil => intro seen; simp [dedup_pass]
  | cons p rest ih =>
    intro seen
    simp only [dedup_pass]
    by_cases hs : sigOf p.1 ∈ seen
    · rw [if_pos hs]
      exact (ih seen).trans (List.sublist_cons_self p rest)
    · rw [if_neg hs]
      exact List.Sublist.cons₂ p (ih _)

theorem dedup_pass_spec :
    ∀ (pairs : List (List Char × List (String × MVal))) (seen : List (List Char)),
      ∀ p ∈ dedup_pass seen pairs,
        sigOf p.1 ∉ seen ∧
          pairs.find? (fun q => sigOf q.1 == sigOf p.1) = some p := by
  intro pairs
  induction pairs with
  | nil => intro seen p hp; simp [dedup_pass] at hp
  | cons q rest ih =>
    intro seen p hp
    simp only [dedup_pass] at hp
    by_cases hs : sigOf q.1 ∈ seen
    · rw [if_pos hs] at hp
      obtain ⟨hnot, hfind⟩ := ih seen p hp
      have hne : (sigOf q.1 == sigOf p.1) = false := by
        rw [beq_eq_false_iff_ne]
        intro he
        exact hnot (he ▸ hs)
      refine ⟨hnot, ?_⟩
      rw [List.find?_cons_of_neg _ (by simp [hne]), hfind]
    · rw [if_neg hs] at hp
      rcases List.mem_cons.mp hp with rfl | hp'
      · refine ⟨hs, ?_⟩
        rw [List.find?_cons_of_pos _ (by simp)]
      · obtain ⟨hnot, hfind⟩ := ih (sigOf q.1 :: seen) p hp'
        have hne : (sigOf q.1 == sigOf p.1) = false := by
          rw [beq_eq_false_iff_ne]
          intro he
          exact hnot (he ▸ List.mem_cons_self _ _)
        refine ⟨fun hmem => hnot (List.mem_cons_of_mem _ hmem), ?_⟩
        rw [List.find?_cons_of_neg _ (by simp [hne]), hfind]

theorem dedup_pass_sigs_nodup :
    ∀ (pairs : List (List Char × List (String × MVal))) (seen : List (List Char)),
      ((dedup_pass seen pairs).map (fun p => sigOf p.1)).Nodup := by
  intro pairs
  induction pairs with
  | nil => intro seen; simp [dedup_pass]
  | cons q rest ih =>
    intro seen
    simp only [dedup_pass]
    by_cases hs : sigOf q.1 ∈ seen
    · rw [if_pos hs]
      exact ih seen
    · rw [if_neg hs]
      simp only [List.map_cons, List.nodup_cons]
      refine ⟨?_, ih _⟩
      intro hmem
      obtain ⟨p, hp, hsig⟩ := List.mem_map.mp hmem
      exact (dedup_pass_spec rest (sigOf q.1 :: seen) p hp).1
        (hsig ▸ List.mem_cons_self _ _)

theorem zip_map_fst_sublist {α β : Type} (l1 : List α) (l2 : List β) :
    List.Sublist ((l1.zip l2).map Prod.fst) l1 := by
  induction l1 generalizing l2 with
  | nil => simp
  | cons a t ih =>
    cases l2 with
    | nil => simp
    | cons b t2 =>
      simp only [List.zip_cons_cons, List.map_cons]
      exact List.Sublist.cons₂ a (ih t2)

theorem psrAux_mem (limit : Nat) :
    ∀ (pairs : List (List Char × List (String × MVal)))
      (seen : List (List Char)) (acc : List (List Char × List (String × MVal)))
      (p : List Char × List (String × MVal)),
      p ∈ psrAux limit seen acc pairs →
      p ∈ acc ∨ ∃ q, q ∈ pairs ∧ p = annotatePair q := by
  intro pairs
  induction pairs with
  | nil =>
    intro seen acc p hp
    exact Or.inl hp
  | cons q rest ih =>
    intro seen acc p hp
    simp only [psrAux] at hp
    by_cases hs : sigOf q.1 ∈ seen
    · rw [if_pos hs] at hp
      by_cases hl : limit ≤ acc.length
      · rw [if_pos hl] at hp
        exact Or.inl hp
      · rw [if_neg hl] at hp
        rcases ih seen acc p hp with h | ⟨r, hr, he⟩
        · exact Or.inl h
        · exact Or.inr ⟨r, List.mem_cons_of_mem _ hr, he⟩
    · rw [if_neg hs] at hp
      by_cases hl : limit ≤ (acc ++ [annotatePair q]).length
      · rw [if_pos hl] at hp
        rcases List.mem_append.mp hp with h | h
        · exact Or.inl h
        · simp only [List.mem_singleton] at h
          exact Or.inr ⟨q, List.mem_cons_self _ _, h⟩
      · rw [if_neg hl] at hp
        rcases ih _ _ p hp with h | ⟨r, hr, he⟩
        · rcases List.mem_append.mp h with h1 | h1
          · exact Or.inl h1
          · simp only [List.mem_singleton] at h1
            exact Or.inr ⟨q, List.mem_cons_self _ _, h1⟩
        · exact Or.inr ⟨r, List.mem_cons_of_mem _ hr, he⟩

theorem lookupMeta_dictInsert_ne (k k' : String) (v : MVal) (hne : k ≠ k') :
    ∀ m, lookupMeta k (dictInsert k' v m) = lookupMeta k m := by
  intro m
  induction m with
  | nil =>
    simp only [dictInsert, lookupMeta]
    rw [if_neg (fun h => hne h.symm)]
  | cons kv rest ih =>
    simp only [dictInsert]
    by_cases h1 : kv.1 = k'
    · rw [if_pos h1]
      simp only [lookupMeta]
      have hnk : kv.1 ≠ k := fun h => hne (h ▸ h1)
      rw [if_neg hnk, if_neg hnk]
    · rw [if_neg h1]
      simp only [lookupMeta]
      by_cases h2 : kv.1 = k
      · rw [if_pos h2, if_pos h2]
      · rw [if_neg h2, if_neg h2]
        exact ih

theorem lookupMeta_dictInsert_self (k : String) (v : MVal) :
    ∀ m, lookupMeta k (dictInsert k v m) = some v := by
  intro m
  induction m with
  | nil => simp [dictInsert, lookupMeta]
  | cons kv rest ih =>
    simp only [dictInsert]
    by_cases h1 : kv.1 = k
    · rw [if_pos h1]
      simp only [lookupMeta]
      rw [if_pos h1]
    · rw [if_neg h1]
      simp only [lookupMeta]
      rw [if_neg h1]
      exact ih

theorem annotateMeta_lookup_ne (m : List (String × MVal)) (k : String)
    (hk : k ≠ "metrics_summary") :
    lookupMeta k (annotateMeta m) = lookupMeta k m := by
  unfold annotateMeta
  by_cases h : lookupMeta "has_metrics" m = some (MVal.s "true".toList)
  · rw [if_pos h]
    exact lookupMeta_dictInsert_ne k _ _ hk m
  · rw [if_neg h]

theorem annotateMeta_summary (m : List (String × MVal))
    (hnone : lookupMeta "metrics_summary" m = none) :
    (lookupMeta "metrics_summary" (annotateMeta m)).isSome ↔
      lookupMeta "has_metrics" m = some (MVal.s "true".toList) := by
  unfold annotateMeta
  by_cases h : lookupMeta "has_metrics" m = some (MVal.s "true".toList)
  · rw [if_pos h, lookupMeta_dictInsert_self]
    simp [h]
  · rw [if_neg h, hnone]
    simp only [Option.isSome_none, Bool.false_eq_true, false_iff]
    exact h

theorem condsOf_length :
    ∀ (spec : List (String × PyVal)) (cs : List Cond), condsOf spec = Except.ok cs →
      cs.length = spec.length := by
  intro spec
  induction spec with
  | nil =>
    intro cs h
    simp only [condsOf] at h
    cases h
    rfl
  | cons kv rest ih =>
    intro cs h
    simp only [condsOf] at h
    cases hc : condFor kv.1 kv.2 with
    | error e =>
      rw [hc] at h
      exact absurd h (by simp)
    | ok c =>
      rw [hc] at h
      cases hr : condsOf rest with
      | error e =>
        rw [hr] at h
        exact absurd h (by simp)
      | ok cs' =>
        rw [hr] at h
        cases h
        simp [ih cs' hr]

/-! Claim theorems. -/

/-- C1: the claim states that storage ids (filing_id + underscore +
chunk_index) are pairwise distinct across all chunk records of one filing
whenever the filing partitions into at least two sections each producing a
chunk.  The code computes chunk_index per section, so the filing fr_c1 —
two sections, one chunk each — receives the colliding ids F1_0 and F1_0:
the invariant stated by the spec is violated by the code. -/
theorem C1_id_collision :
    (partition_into_sections fr_c1.content_text).length = 2 ∧
    storage_ids (process_document fr_c1) = ["F1_0".toList, "F1_0".toList] ∧
    ¬ (storage_ids (process_document fr_c1)).Nodup := by
  refine ⟨by decide, by decide, by decide⟩

/-- C2 counterexample: the chunk produced from fr_c2 carries the entity
name under company_name and has no entity_name field at all, refuting the
claim that the entity name is stored under the field name entity_name. -/
theorem C2_counterexample :
    process_document fr_c2 = [c2_chunk] ∧
    lookupMeta "entity_name" c2_chunk.metadata = none ∧
    lookupMeta "company_name" c2_chunk.metadata = some (MVal.s "Acme Corp".toList) := by
  refine ⟨by decide, by decide, by decide⟩

/-- C2 (amended): every chunk record of any filing carries exactly the
eleven metadata fields of §3, with the entity name stored under the field
name company_name (not entity_name). -/
theorem C2_metadata_field_names (doc : FilingRecord) (c : ChunkRec)
    (hc : c ∈ process_document doc) :
    c.metadata.map Prod.fst =
      ["filing_id", "company_name", "ticker", "filing_type", "filing_date",
       "section", "chunk_index", "total_chunks", "currency_amounts",
       "percentages", "has_metrics"] ∧
    lookupMeta "company_name" c.metadata = some (MVal.s doc.entity_name) ∧
    lookupMeta "entity_name" c.metadata = none := by
  unfold process_document at hc
  by_cases he : doc.content_text = []
  · rw [if_pos he] at hc
    simp at hc
  · rw [if_neg he] at hc
    simp only [List.mem_flatMap, List.mem_map] at hc
    obtain ⟨sec, _, ip, _, rfl⟩ := hc
    exact ⟨rfl, rfl, rfl⟩

/-- C2 witness: the amended statement evaluated on the concrete filing
fr_c2 and its chunk. -/
theorem C2_witness :
    c2_chunk.metadata.map Prod.fst =
      ["filing_id", "company_name", "ticker", "filing_type", "filing_date",
       "section", "chunk_index", "total_chunks", "currency_amounts",
       "percentages", "has_metrics"] ∧
    lookupMeta "company_name" c2_chunk.metadata = some (MVal.s fr_c2.entity_name) ∧
    lookupMeta "entity_name" c2_chunk.metadata = none :=
  C2_metadata_field_names fr_c2 c2_chunk (by decide)

/-- C3 counterexample: partition applied to the spec's example text does
not return two sections. -/
theorem C3_counterexample : (partition_into_sections t_c3).length ≠ 2 := by decide

/-- C3 (amended): partition applied to the example text returns exactly
one section, a risk_factors section containing all four lines, because the
line Item 7. MD&A matches none of the section patterns (the mda pattern
requires the spelled-out Management's Discussion and Analysis). -/
theorem C3_single_section :
    partition_into_sections t_c3 = [(t_c3, "risk_factors")] ∧
    determine_section_type "Item 7. MD&A".toList = "other" := by
  refine ⟨by decide, by decide⟩

/-- C4 counterexample: extract on the text with a capitalized unit word
does not yield the multiplied amount claimed for case-insensitive
matching. -/
theorem C4_counterexample :
    (extract_financial_metrics "$2 Million".toList).currency_amounts ≠
      [(2000000 : ℚ)] := by decide

/-- C4 (amended): the unit-word alternation of the currency regex carries
no IGNORECASE flag, so the multiplier is applied only when the unit word
appears in lowercase; otherwise the bare amount is extracted. -/
theorem C4_case_sensitive_units :
    (extract_financial_metrics "$1,500.00".toList).currency_amounts = [(1500 : ℚ)] ∧
    (extract_financial_metrics "$2 million".toList).currency_amounts = [(2000000 : ℚ)] ∧
    (extract_financial_metrics "$2 billion".toList).currency_amounts = [(2000000000 : ℚ)] ∧
    (extract_financial_metrics "$2 Million".toList).currency_amounts = [(2 : ℚ)] ∧
    (extract_financial_metrics "$2 TRILLION".toList).currency_amounts = [(2 : ℚ)] := by
  refine ⟨by decide, by decide, by decide, by decide, by decide⟩

/-- C5 counterexample: a filter_spec binding a field to a nested dict that
is neither a scalar nor an in-marker is not rejected — the builder returns
a predicate embedding the nested value verbatim. -/
theorem C5_counterexample :
    construct_search_criteria [("f", v_c5)] ≠ Except.error () ∧
    construct_search_criteria [("f", v_c5)] =
      Except.ok (some (Cond.fieldIs "f" v_c5)) :=
  ⟨(fun h => nomatch h), rfl⟩

/-- C5 (amended): the builder performs no shape validation — every value
that is not a dict carrying an in key, nested structures included, is
silently coerced into a direct field condition. -/
theorem C5_no_rejection (f : String) (v : PyVal) (h : isInDict v = false) :
    construct_search_criteria [(f, v)] = Except.ok (some (Cond.fieldIs f v)) := by
  cases v with
  | pstr s => rfl
  | pint n => rfl
  | plist vs => rfl
  | pdict kvs =>
    have hl : pyLookup "$in" kvs = none := by
      cases hp : pyLookup "$in" kvs with
      | none => rfl
      | some w =>
        rw [isInDict, hp] at h
        simp at h
    simp [construct_search_criteria, condsOf, condFor, hl]

/-- C5 witness: the amended statement evaluated on a two-entry nested
dict. -/
theorem C5_witness :
    isInDict v_c5w = false ∧
    construct_search_criteria [("g", v_c5w)] =
      Except.ok (some (Cond.fieldIs "g" v_c5w)) :=
  ⟨rfl, C5_no_rejection "g" v_c5w rfl⟩

/-- C6: filter translation — a one-element in-set yields a bare equality
condition, a larger in-set yields a disjunction of equalities in member
order, a single-field spec returns its condition without a conjunction
wrapper, and a multi-field spec combines all field conditions under one
conjunction. -/
theorem C6_filter_translation :
    (∀ (f : String) (x : PyVal),
      condFor f (PyVal.pdict [("$in", PyVal.plist [x])]) =
        Except.ok (Cond.fieldIs f x)) ∧
    (∀ (f : String) (xs : List PyVal), 2 ≤ xs.length →
      condFor f (PyVal.pdict [("$in", PyVal.plist xs)]) =
        Except.ok (Cond.orC (xs.map (fun x => Cond.fieldIs f x)))) ∧
    (∀ (f : String) (v : PyVal) (c : Cond), condFor f v = Except.ok c →
      construct_search_criteria [(f, v)] = Except.ok (some c)) ∧
    (∀ (spec : List (String × PyVal)) (cs : List Cond), 2 ≤ spec.length →
      condsOf spec = Except.ok cs →
      construct_search_criteria spec = Except.ok (some (Cond.andC cs))) := by
  refine ⟨?_, ?_, ?_, ?_⟩
  · intro f x
    rfl
  · intro f xs h
    match xs, h with
    | x1 :: x2 :: t, _ => rfl
  · intro f v c h
    simp only [construct_search_criteria, condsOf, h]
  · intro spec cs h2 hc
    match spec, h2 with
    | s1 :: s2 :: srest, _ =>
      have hlen := condsOf_length _ _ hc
      simp only [List.length_cons] at hlen
      simp only [construct_search_criteria, hc]
      cases cs with
      | nil => simp at hlen
      | cons c1 ct =>
        cases ct with
        | nil =>
          simp only [List.length_cons, List.length_nil] at hlen
          omega
        | cons c2 ct2 => rfl

/-- C6 witness: the four clauses evaluated on the spec's worked examples. -/
theorem C6_witness :
    condFor "ticker" (PyVal.pdict [("$in", PyVal.plist [PyVal.pstr "AAPL".toList])]) =
      Except.ok (Cond.fieldIs "ticker" (PyVal.pstr "AAPL".toList)) ∧
    condFor "ticker"
        (PyVal.pdict [("$in",
          PyVal.plist [PyVal.pstr "AAPL".toList, PyVal.pstr "MSFT".toList])]) =
      Except.ok (Cond.orC [Cond.fieldIs "ticker" (PyVal.pstr "AAPL".toList),
        Cond.fieldIs "ticker" (PyVal.pstr "MSFT".toList)]) ∧
    construct_search_criteria [("filing_type", PyVal.pstr "10-K".toList)] =
      Except.ok (some (Cond.fieldIs "filing_type" (PyVal.pstr "10-K".toList))) ∧
    construct_search_criteria
        [("ticker", PyVal.pstr "AAPL".toList),
         ("filing_type", PyVal.pstr "10-K".toList)] =
      Except.ok (some (Cond.andC [Cond.fieldIs "ticker" (PyVal.pstr "AAPL".toList),
        Cond.fieldIs "filing_type" (PyVal.pstr "10-K".toList)])) := by
  refine ⟨C6_filter_translation.1 "ticker" _, ?_, ?_, ?_⟩
  · exact C6_filter_translation.2.1 "ticker" _ (by decide)
  · exact C6_filter_translation.2.2.1 "filing_type" _ _ rfl
  · exact C6_filter_translation.2.2.2 _ _ (by decide) rfl

/-- C7 counterexample: with limit 0 and a nonempty candidate list the loop
appends one result before the break check, so more than limit results are
emitted. -/
theorem C7_limit_zero :
    ¬ ((process_search_results [['a']] [[]] 0).length ≤ 0) := by decide

/-- C7 (amended, for every limit of at least 1): post-processing emits at
most limit results, keeps rank order (the emitted texts form a sublist of
the candidate texts), never emits two results sharing a 100-character
signature, emits for each signature the highest-ranked candidate with its
(annotated) metadata, and returns all unique candidates when fewer than
limit exist. -/
theorem C7_search_postprocessing (docs : List (List Char))
    (metas : List (List (String × MVal))) (limit : Nat) (h : 1 ≤ limit) :
    (process_search_results docs metas limit).length ≤ limit ∧
    List.Sublist ((process_search_results docs metas limit).map Prod.fst) docs ∧
    ((process_search_results docs metas limit).map (fun p => sigOf p.1)).Nodup ∧
    (∀ p ∈ process_search_results docs metas limit,
      ∃ q, (docs.zip metas).find? (fun r => sigOf r.1 == sigOf p.1) = some q ∧
        p = annotatePair q) ∧
    ((dedup_pass [] (docs.zip metas)).length ≤ limit →
      process_search_results docs metas limit =
        (dedup_pass [] (docs.zip metas)).map annotatePair) := by
  rw [psr_closed docs metas limit h]
  refine ⟨?_, ?_, ?_, ?_, ?_⟩
  · simp only [List.length_map, List.length_take]
    omega
  · rw [List.map_map]
    have hf : (Prod.fst ∘ annotatePair) = (Prod.fst : _ → List Char) := by
      funext p
      rfl
    rw [hf]
    exact (((List.take_sublist _ _).map _).trans
      ((dedup_pass_sublist _ _).map _)).trans (zip_map_fst_sublist docs metas)
  · rw [List.map_map]
    have hf : ((fun p => sigOf p.1) ∘ annotatePair) =
        (fun (p : List Char × List (String × MVal)) => sigOf p.1) := by
      funext p
      rfl
    rw [hf]
    exact (dedup_pass_sigs_nodup (docs.zip metas) []).sublist
      ((List.take_sublist _ _).map _)
  · intro p hp
    obtain ⟨q, hq, rfl⟩ := List.mem_map.mp hp
    have hq' : q ∈ dedup_pass [] (docs.zip metas) := List.mem_of_mem_take hq
    exact ⟨q, (dedup_pass_spec _ _ q hq').2, rfl⟩
  · intro hlen
    rw [List.take_of_length_le hlen]

/-- C7 witness: the amended statement evaluated on a single candidate with
limit 1. -/
theorem C7_witness :
    (process_search_results [['a']] [[]] 1).length ≤ 1 ∧
    List.Sublist ((process_search_results [['a']] [[]] 1).map Prod.fst) [['a']] ∧
    ((process_search_results [['a']] [[]] 1).map (fun p => sigOf p.1)).Nodup ∧
    (∀ p ∈ process_search_results [['a']] [[]] 1,
      ∃ q, ([['a']].zip [([] : List (String × MVal))]).find?
          (fun r => sigOf r.1 == sigOf p.1) = some q ∧
        p = annotatePair q) ∧
    ((dedup_pass [] ([['a']].zip [([] : List (String × MVal))])).length ≤ 1 →
      process_search_results [['a']] [[]] 1 =
        (dedup_pass [] ([['a']].zip [([] : List (String × MVal))])).map annotatePair) :=
  C7_search_postprocessing [['a']] [[]] 1 (by decide)

/-- C8: a filing whose text is empty or consists only of whitespace
characters yields an empty chunk sequence from process_document. -/
theorem C8_whitespace_empty (doc : FilingRecord)
    (h : ∀ c ∈ doc.content_text, pyWS c = true) :
    process_document doc = [] := by
  unfold process_document
  by_cases he : doc.content_text = []
  · rw [if_pos he]
  · rw [if_neg he]
    rw [List.flatMap_eq_nil_iff.mpr]
    intro sec hsec
    have hws : ∀ c ∈ sec.1, pyWS c = true := by
      refine partGo_ws (splitOnChar '\n' doc.content_text) [] "other" ?_ (by simp) sec hsec
      intro l hl c hc
      exact h c (splitOnChar_chars '\n' doc.content_text l hl c hc)
    rw [normalize_text_ws sec.1 hws, split_text_nil]
    rfl

/-- C8 witness: the statement evaluated on a whitespace-only filing. -/
theorem C8_witness :
    (∀ c ∈ fr_c8.content_text, pyWS c = true) ∧ process_document fr_c8 = [] :=
  ⟨by decide, C8_whitespace_empty fr_c8 (by decide)⟩

/-- C9: every chunk returned by the splitter either fits within chunk_size
or is a single atomic unit containing no separator at all (the
oversized-token escape hatch of §4.3). -/
theorem C9_chunk_length_bound (s c : List Char) (hc : c ∈ split_text s) :
    c.length ≤ chunk_size ∨ ∀ sep ∈ separators, ¬ sep <:+: c := by
  have hsep : ∀ t ∈ separators, t ≠ ([] : List Char) := by decide
  have h1 := splitRec_spec separators s hsep
  exact mergeAux_spec (fun d => ∀ sep ∈ separators, ¬ sep <:+: d)
    (splitRec separators s) [] (fun p hp => (h1 p hp).2) (by simp) c hc

/-- C9 witness: the bound evaluated on a short text that splits to a
single chunk. -/
theorem C9_witness :
    "hello world".toList ∈ split_text "hello world".toList ∧
    ("hello world".toList.length ≤ chunk_size ∨
      ∀ sep ∈ separators, ¬ sep <:+: "hello world".toList) :=
  ⟨by decide, C9_chunk_length_bound "hello world".toList "hello world".toList (by decide)⟩

/-- C10: every emitted result is a stored candidate's text paired with its
stored metadata, every field other than metrics_summary unchanged; the
metrics_summary key is present exactly when the candidate's has_metrics
field is the string true (stored candidates carry no metrics_summary field
of their own, per the ingestion contract of §3). -/
theorem C10_result_frame (docs : List (List Char))
    (metas : List (List (String × MVal))) (limit : Nat)
    (hm : ∀ m ∈ metas, lookupMeta "metrics_summary" m = none)
    (p : List Char × List (String × MVal))
    (hp : p ∈ process_search_results docs metas limit) :
    ∃ m0, (p.1, m0) ∈ docs.zip metas ∧
      (∀ k : String, k ≠ "metrics_summary" → lookupMeta k p.2 = lookupMeta k m0) ∧
      ((lookupMeta "metrics_summary" p.2).isSome ↔
        lookupMeta "has_metrics" m0 = some (MVal.s "true".toList)) := by
  unfold process_search_results at hp
  cases docs with
  | nil => simp at hp
  | cons d ds =>
    rcases psrAux_mem limit ((d :: ds).zip metas) [] [] p hp with h | ⟨q, hq, rfl⟩
    · simp at h
    · refine ⟨q.2, ?_, ?_, ?_⟩
      · simpa [annotatePair] using hq
      · intro k hk
        exact annotateMeta_lookup_ne q.2 k hk
      · refine annotateMeta_summary q.2 (hm q.2 ?_)
        exact (List.of_mem_zip (show (q.1, q.2) ∈ (d :: ds).zip metas by
          simpa using hq)).2

/-- C10 witness: the frame statement evaluated on one metric-flagged
candidate. -/
theorem C10_witness :
    ∃ m0, ((annotatePair (['x'], m_c10)).1, m0) ∈ [['x']].zip [m_c10] ∧
      (∀ k : String, k ≠ "metrics_summary" →
        lookupMeta k (annotatePair (['x'], m_c10)).2 = lookupMeta k m0) ∧
      ((lookupMeta "metrics_summary" (annotatePair (['x'], m_c10)).2).isSome ↔
        lookupMeta "has_metrics" m0 = some (MVal.s "true".toList)) :=
  C10_result_frame [['x']] [m_c10] 1 (by decide) (annotatePair (['x'], m_c10)) (by decide)

end SECFiling
